import Mathlib

/-!
# Verification of the Johansen cointegration test implementation

Shallow embedding of `src/johansen/johansen.py` (class `Johansen`).

Numeric matrices are embedded as lists of rows over `ℝ` (mirroring the
row-major numpy layout).  External library calls (`np.linalg.pinv`,
`np.linalg.inv`, `np.linalg.eig`, `np.linalg.cholesky`) are modelled as
oracle functions supplied as parameters: the code under verification only
sequences them and handles their failures, so theorems about the pipeline
quantify over the oracles.  `statsmodels.tsa.tsatools.lagmat` is embedded
directly from its documented behaviour (`trim` equal to `both`, `original`
equal to `ex`), including its `maxlag should be < nobs` guard.

Failure paths of `Johansen.mle` (each `except: print(...); return None`
branch, plus the uncaught `LinAlgError` that `np.linalg.cholesky` can
raise) are modelled as distinct constructors of `MleError`; the bare
`try/except` in `Johansen.johansen` maps every one of them to `none`.
-/

namespace Johansen

/-- Dot product of two rows, `np.dot` on vectors (zip truncates like the
shape-checked numpy product never does; all uses are well-shaped). -/
def dotRow (r c : List ℝ) : ℝ :=
  ((r.zip c).map fun p => p.1 * p.2).sum

/-- Column `j` of a row-major matrix. -/
def colOf (B : List (List ℝ)) (j : ℕ) : List ℝ :=
  B.map fun row => row.getD j 0

/-- Row-major matrix product, `np.dot`. -/
def matMul (A B : List (List ℝ)) : List (List ℝ) :=
  A.map fun row => (List.range (B.getD 0 []).length).map fun j => dotRow row (colOf B j)

/-- Entrywise matrix difference, numpy `-` on arrays. -/
def matSub (A B : List (List ℝ)) : List (List ℝ) :=
  (A.zip B).map fun p => (p.1.zip p.2).map fun q => q.1 - q.2

/-- Matrix transpose for row-major list matrices. -/
def matTranspose (A : List (List ℝ)) : List (List ℝ) :=
  (List.range (A.getD 0 []).length).map fun j => colOf A j

/-- Scalar multiple of a matrix, numpy `/ t` written as `(1/t) • ·`. -/
def matSmul (c : ℝ) (A : List (List ℝ)) : List (List ℝ) :=
  A.map fun row => row.map fun a => c * a

/-- `np.diff(x, axis=0)`: row `t` of the result is `x[t+1] - x[t]`. -/
def xDiffOf (x : List (List ℝ)) : List (List ℝ) :=
  (x.tail.zip x).map fun p => (p.1.zip p.2).map fun q => q.1 - q.2

/-- Row `t` of `lagmat(xs, q, trim='both')`: the lags
`xs[t-1], xs[t-2], ..., xs[t-q]` concatenated (valid for `t ≥ q`). -/
def lagmatRow (xs : List (List ℝ)) (q t : ℕ) : List ℝ :=
  ((List.range q).map fun j => xs.getD (t - (j + 1)) []).flatten

/-- `statsmodels.tsa.tsatools.lagmat(xs, q, trim='both')` (with the default
`original='ex'`): rows `q ≤ t < xs.length`, row `t` holding lags 1..q. -/
def lagmat (xs : List (List ℝ)) (q : ℕ) : List (List ℝ) :=
  (List.range (xs.length - q)).map fun i => lagmatRow xs q (i + q)

/-- Lines 102-104: append a column of ones iff `model != 0`. -/
def addConst (model : ℕ) (A : List (List ℝ)) : List (List ℝ) :=
  if model ≠ 0 then A.map fun row => row ++ [(1 : ℝ)] else A

/-- Lines 106-109: append the time-trend column `0, 1, 2, ...` iff
`model` is 3 or 4. -/
def addTrend (model : ℕ) (A : List (List ℝ)) : List (List ℝ) :=
  if model = 3 ∨ model = 4 then
    (List.range A.length).map fun i => A.getD i [] ++ [(i : ℝ)]
  else A

/-- The auxiliary-regression design matrix `x_diff_lags` of `Johansen.mle`
(lines 89-109): `lagmat` of the first differences with `k` lags, plus the
deterministic columns selected by `model`. -/
def designMatrix (x : List (List ℝ)) (k model : ℕ) : List (List ℝ) :=
  addTrend model (addConst model (lagmat (xDiffOf x) k))

/-- Least-squares residual `y - X (P y)` where `P` stands for the computed
pseudo-inverse of `X` (lines 118-119). -/
def regResid (X P y : List (List ℝ)) : List (List ℝ) :=
  matSub y (matMul X (matMul P y))

/-- Residual matrix `u` of `Johansen.mle` (line 118): residual of the
`k`-trimmed `x_diff` on the design matrix, with pseudo-inverse `P`. -/
def uResid (x : List (List ℝ)) (k model : ℕ) (P : List (List ℝ)) : List (List ℝ) :=
  regResid (designMatrix x k model) P ((xDiffOf x).drop k)

/-- Residual matrix `v` of `Johansen.mle` (line 119): residual of the
`k`-trimmed `x_lag = lagmat(x, 1, trim='both')` on the design matrix. -/
def vResid (x : List (List ℝ)) (k model : ℕ) (P : List (List ℝ)) : List (List ℝ) :=
  regResid (designMatrix x k model) P ((lagmat x 1).drop k)

/-- The comparison used to model `np.argsort(eigenvalues)`: index `i`
precedes index `j` when `eigenvalues[i] <= eigenvalues[j]`. -/
noncomputable def argsortLe (vals : List ℝ) (i j : ℕ) : Bool :=
  decide (vals.getD i 0 ≤ vals.getD j 0)

/-- Lines 153-155: `np.argsort(eigenvalues)` followed by `np.flipud`.
`argsort` returns index positions putting the values in ascending order;
flipping yields indices for descending order.  Embedded with a merge sort
of the index list (any correct ascending sort models `argsort`). -/
noncomputable def argsortDesc (vals : List ℝ) : List ℕ :=
  ((List.range vals.length).mergeSort (argsortLe vals)).reverse

/-- `M[:, idx]` for a row-major matrix: every row is re-indexed by `idx`
(line 157, `eigenvectors[:, indices_ordered]`). -/
def colPermute (idx : List ℕ) (M : List (List ℝ)) : List (List ℝ) :=
  M.map fun row => idx.map fun j => row.getD j 0

/-- Line 156: `eigenvalues[indices_ordered]`. -/
noncomputable def orderedEigenvalues (vals : List ℝ) : List ℝ :=
  (argsortDesc vals).map fun j => vals.getD j 0

/-- Line 157: `eigenvectors[:, indices_ordered]`. -/
noncomputable def orderedEigenvectors (vals : List ℝ) (E : List (List ℝ)) :
    List (List ℝ) :=
  colPermute (argsortDesc vals) E

/-- The numpy linear-algebra routines used by `Johansen.mle`, supplied as
oracles.  `pinvO`, `invO` and `cholO` return `none` when the corresponding
numpy call raises `LinAlgError`; `eigO` returns the pair
(eigenvalues, eigenvector matrix) of `np.linalg.eig`. -/
structure Oracles where
  pinvO : List (List ℝ) → Option (List (List ℝ))
  invO : List (List ℝ) → Option (List (List ℝ))
  eigO : List (List ℝ) → List ℝ × List (List ℝ)
  cholO : List (List ℝ) → Option (List (List ℝ))

/-- The distinct failure exits of `Johansen.mle`: the two `lagmat` guards
(`maxlag should be < nobs`), the four `except: ...; return None` branches,
and the uncaught `LinAlgError` of `np.linalg.cholesky` (line 145). -/
inductive MleError where
  | lagmatDiff
  | lagmatLag
  | pinvFail
  | svvSingular
  | suuSingular
  | cholNotPD
  | cholInvFail
  deriving DecidableEq

/-- `Johansen.mle` (lines 73-159), with the numpy decompositions supplied
by `or`.  Follows the source line by line: differences, `lagmat` (whose
`maxlag >= nobs` guard raises), trimming by `k`, deterministic columns,
residual regression via the pseudo-inverse, covariance matrices, the
eigenproblem on `Svv⁻¹ Svu Suu⁻¹ Suv`, Cholesky normalization, and the
descending reordering of the eigensystem. -/
noncomputable def mleModel (o : Oracles) (x : List (List ℝ)) (k model : ℕ) :
    Except MleError (List (List ℝ) × List ℝ) :=
  let xd := xDiffOf x
  if xd.length ≤ k then .error .lagmatDiff
  else if x.length ≤ 1 then .error .lagmatLag
  else
    let X := designMatrix x k model
    let xdT := xd.drop k
    let xlT := (lagmat x 1).drop k
    match o.pinvO X with
    | none => .error .pinvFail
    | some P =>
      let u := regResid X P xdT
      let v := regResid X P xlT
      let t : ℝ := (X.length : ℝ)
      let Svv := matSmul (1 / t) (matMul (matTranspose v) v)
      let Suu := matSmul (1 / t) (matMul (matTranspose u) u)
      let Suv := matSmul (1 / t) (matMul (matTranspose u) v)
      let Svu := matTranspose Suv
      match o.invO Svv with
      | none => .error .svvSingular
      | some SvvInv =>
        match o.invO Suu with
        | none => .error .suuSingular
        | some SuuInv =>
          let covProd := matMul SvvInv (matMul Svu (matMul SuuInv Suv))
          let ep := o.eigO covProd
          let evecSvvEvec :=
            matMul (matTranspose ep.2) (matMul Svv ep.2)
          match o.cholO evecSvvEvec with
          | none => .error .cholNotPD
          | some L =>
            match o.invO (matTranspose L) with
            | none => .error .cholInvFail
            | some LTinv =>
              let normVecs := matMul ep.2 LTinv
              .ok (orderedEigenvectors ep.1 normVecs, orderedEigenvalues ep.1)

/-- The likelihood-ratio statistic of `Johansen.h_test` (lines 178-185):
`t = nobs - k - 1`; trace statistic
`-t * sum(log(ones(m) - eigenvalues)[r:])`, max-eigenvalue statistic
`-t * log(1 - eigenvalues[r])`. -/
noncomputable def hTestStatistic (nobs k : ℕ) (trace : Bool)
    (eigenvalues : List ℝ) (r : ℕ) : ℝ :=
  let t : ℝ := (nobs : ℝ) - (k : ℝ) - 1
  if trace then
    -t * ((eigenvalues.map fun lam => Real.log (1 - lam)).drop r).sum
  else
    -t * Real.log (1 - eigenvalues.getD r 0)

/-- `Johansen.h_test` (lines 161-192).  In the trace branch the local `m`
is reassigned to `len(eigenvalues)` (line 182) before the critical-value
lookup at index `m - r - 1`; in the max-eigenvalue branch `m` stays the
number of series from `x.shape`. -/
noncomputable def hTest (nobs k : ℕ) (trace : Bool) (criticalValues : List ℝ)
    (m : ℕ) (eigenvalues : List ℝ) (r : ℕ) : Bool :=
  let mUsed := if trace then eigenvalues.length else m
  if hTestStatistic nobs k trace eigenvalues r >
      criticalValues.getD (mUsed - r - 1) 0 then true else false

/-- The rejection loop of `Johansen.johansen` (lines 213-216): collect, in
order, every `r` in `range(m)` for which `h_test` rejects. -/
noncomputable def hTestAll (nobs k : ℕ) (trace : Bool) (criticalValues : List ℝ)
    (m : ℕ) (eigenvalues : List ℝ) : List ℕ :=
  (List.range m).filter fun r => hTest nobs k trace criticalValues m eigenvalues r

/-- `Johansen.johansen` (lines 194-218) given the outcome of `mle`: the
bare `try/except` maps any failure to `None` (line 211); on success it
returns the eigenvectors paired with the rejected ranks. -/
noncomputable def johansenFromMle (nobs k : ℕ) (trace : Bool)
    (criticalValues : List ℝ) (m : ℕ)
    (mleResult : Except MleError (List (List ℝ) × List ℝ)) :
    Option (List (List ℝ) × List ℕ) :=
  match mleResult with
  | .error _ => none
  | .ok (eigenvectors, eigenvalues) =>
    some (eigenvectors, hTestAll nobs k trace criticalValues m eigenvalues)

/-- The whole `Johansen.johansen` run, wiring `mle` into the test loop;
`nobs, m = self.x.shape` (line 205). -/
noncomputable def johansenRun (o : Oracles) (x : List (List ℝ)) (k model : ℕ)
    (trace : Bool) (criticalValues : List ℝ) :
    Option (List (List ℝ) × List ℕ) :=
  johansenFromMle x.length k trace criticalValues (x.getD 0 []).length
    (mleModel o x k model)

/-- The Cholesky normalization step of `Johansen.mle` (lines 143-148) on
`Fin`-indexed matrices: `eigenvectors ← eigenvectors · (Lᵀ)⁻¹` where `L`
is the Cholesky factor of `Eᵗ·Svv·E`. -/
noncomputable def cholNormalize {n : ℕ} (E L : Matrix (Fin n) (Fin n) ℝ) :
    Matrix (Fin n) (Fin n) ℝ :=
  E * (Matrix.transpose L)⁻¹

/-- A degenerate stand-in for the numpy routines, used to instantiate
theorems about the pipeline at concrete inputs. -/
def trivOracles : Oracles :=
  ⟨fun _ => none, fun _ => none, fun _ => ([], []), fun _ => none⟩

/-! ## Helper lemmas -/

theorem getD_map_of_lt {α β : Type} (f : α → β) (l : List α) (i : ℕ)
    (d₁ : β) (d₂ : α) (h : i < l.length) :
    (l.map f).getD i d₁ = f (l.getD i d₂) := by
  rw [List.getD_eq_getElem _ _ (by simpa using h), List.getD_eq_getElem _ _ h,
    List.getElem_map]

theorem sum_drop_eq_sum_range (l : List ℝ) (r : ℕ) :
    (l.drop r).sum = ∑ i ∈ Finset.range (l.length - r), l.getD (r + i) 0 := by
  induction l generalizing r with
  | nil => simp
  | cons a xs ih =>
    cases r with
    | zero =>
      rw [List.drop_zero, List.sum_cons]
      rw [show (a :: xs).length - 0 = xs.length + 1 from by simp]
      rw [Finset.sum_range_succ']
      have h0 : (a :: xs).getD (0 + 0) 0 = a := rfl
      have h1 : ∀ i ∈ Finset.range xs.length,
          (a :: xs).getD (0 + (i + 1)) 0 = xs.getD (0 + i) 0 := by
        intro i _
        simp [List.getD_cons_succ]
      rw [Finset.sum_congr rfl h1, h0]
      have h2 := ih 0
      simp only [Nat.sub_zero] at h2
      rw [← h2, List.drop_zero]
      ring
    | succ s =>
      rw [List.drop_succ_cons, ih s]
      have hlen : (a :: xs).length - (s + 1) = xs.length - s := by simp
      rw [hlen]
      refine Finset.sum_congr rfl ?_
      intro i _
      have : s + 1 + i = (s + i) + 1 := by omega
      rw [this, List.getD_cons_succ]

/-! ## C1: the statistics computed by h_test -/

/-- C1: for every eigenvalue sequence and rank hypothesis `r`, `h_test`
computes the trace statistic as `-t * Σ_{i=r}^{m-1} ln(1 - λᵢ)` (with `m`
the length of the eigenvalue sequence) and the max-eigenvalue statistic as
`-t * ln(1 - λᵣ)`, where `t = nobs - k - 1`. -/
theorem h_test_statistic_spec (nobs k : ℕ) (ev : List ℝ) (r : ℕ) :
    hTestStatistic nobs k true ev r
      = -((nobs : ℝ) - (k : ℝ) - 1) *
          ∑ i ∈ Finset.Ico r ev.length, Real.log (1 - ev.getD i 0)
    ∧ hTestStatistic nobs k false ev r
      = -((nobs : ℝ) - (k : ℝ) - 1) * Real.log (1 - ev.getD r 0) := by
  constructor
  · show -((nobs : ℝ) - (k : ℝ) - 1) *
        ((ev.map fun lam => Real.log (1 - lam)).drop r).sum = _
    rw [sum_drop_eq_sum_range, Finset.sum_Ico_eq_sum_range]
    rw [List.length_map]
    congr 1
    refine Finset.sum_congr rfl ?_
    intro i hi
    rw [Finset.mem_range] at hi
    exact getD_map_of_lt _ ev (r + i) 0 0 (by omega)
  · rfl

/-! ## C9: trace and max-eigenvalue statistics coincide when m = 1, r = 0 -/

/-- C9: for a single eigenvalue (m = 1) and rank hypothesis r = 0, the
trace statistic and the max-eigenvalue statistic of `h_test` are equal. -/
theorem h_test_single_series_statistics_equal (nobs k : ℕ) (lam : ℝ) :
    hTestStatistic nobs k true [lam] 0 = hTestStatistic nobs k false [lam] 0 := by
  simp [hTestStatistic]

/-! ## C2: the rejection decision of h_test -/

/-- C2: `h_test` returns `True` iff the statistic strictly exceeds the
critical value at row index `m - r - 1`; equality means fail to reject.
(The hypotheses pin down the situation of an actual run: the eigenvalue
sequence produced by `mle` has one eigenvalue per series, and `r` ranges
over `0..m-1`.) -/
theorem h_test_decision (nobs k : ℕ) (trace : Bool) (cv : List ℝ) (m : ℕ)
    (ev : List ℝ) (r : ℕ) (hlen : ev.length = m) (hr : r < m) :
    (hTest nobs k trace cv m ev r = true ↔
      hTestStatistic nobs k trace ev r > cv.getD (m - r - 1) 0)
    ∧ (hTestStatistic nobs k trace ev r = cv.getD (m - r - 1) 0 →
      hTest nobs k trace cv m ev r = false) := by
  have hm : (if trace then ev.length else m) = m := by
    cases trace <;> simp [hlen]
  constructor
  · by_cases hgt : hTestStatistic nobs k trace ev r > cv.getD (m - r - 1) 0 <;>
      simp [hTest, hm, hgt]
  · intro heq
    have hngt : ¬ hTestStatistic nobs k trace ev r > cv.getD (m - r - 1) 0 := by
      rw [heq]
      exact lt_irrefl _
    simp [hTest, hm, hngt]
    exact le_of_eq (by simpa [List.getD] using heq)

/-- Witness for C2 at `nobs = 3`, `k = 1`, trace statistic, critical row
`[1]`, one eigenvalue `0`, `r = 0`. -/
theorem h_test_decision_witness :
    (([(0 : ℝ)].length = 1) ∧ 0 < 1)
    ∧ ((hTest 3 1 true [1] 1 [(0 : ℝ)] 0 = true ↔
        hTestStatistic 3 1 true [(0 : ℝ)] 0 > [(1 : ℝ)].getD (1 - 0 - 1) 0)
      ∧ (hTestStatistic 3 1 true [(0 : ℝ)] 0 = [(1 : ℝ)].getD (1 - 0 - 1) 0 →
        hTest 3 1 true [1] 1 [(0 : ℝ)] 0 = false)) :=
  ⟨⟨rfl, Nat.zero_lt_one⟩, h_test_decision 3 1 true [1] 1 [0] 0 rfl Nat.zero_lt_one⟩

/-! ## C6: the run tests every rank hypothesis -/

/-- C6: on a successful `mle`, `johansen` evaluates `h_test` for every
`r` in `0..m-1` with no early termination and returns the eigenvectors
together with exactly the ranks whose null was rejected: membership in the
result depends only on `r < m` and the outcome of `h_test` at `r`. -/
theorem johansen_tests_all_ranks (nobs k : ℕ) (trace : Bool) (cv : List ℝ)
    (m : ℕ) (E : List (List ℝ)) (ev : List ℝ) (r : ℕ) :
    johansenFromMle nobs k trace cv m (Except.ok (E, ev))
      = some (E, hTestAll nobs k trace cv m ev)
    ∧ (r ∈ hTestAll nobs k trace cv m ev ↔
        r < m ∧ hTest nobs k trace cv m ev r = true) := by
  refine ⟨rfl, ?_⟩
  simp [hTestAll, List.mem_filter, List.mem_range]

/-! ## C10: shape of the rejected-ranks list -/

/-- C10: the rejected-ranks list built by `johansen` is a sublist of
`[0, 1, ..., m-1]` (hence a strictly ascending list of distinct values
from `{0, ..., m-1}`), and is strictly increasing. -/
theorem rejected_ranks_strictly_ascending (nobs k : ℕ) (trace : Bool)
    (cv : List ℝ) (m : ℕ) (ev : List ℝ) :
    (hTestAll nobs k trace cv m ev).Sublist (List.range m)
    ∧ (hTestAll nobs k trace cv m ev).Pairwise (· < ·) := by
  refine ⟨List.filter_sublist _, ?_⟩
  exact List.Pairwise.sublist (List.filter_sublist _) (List.pairwise_lt_range m)

/-! ## C7: failure propagation out of the top-level run -/

/-- C7 counterexample: two different inner failures (`Svv` singular versus
`Suu` singular) produce the identical top-level result `none`; the
returned value of `johansen` does not identify which numerical
precondition was violated, contradicting the claim. -/
theorem johansen_failure_kind_erased :
    johansenFromMle 3 1 true [1] 1 (Except.error MleError.svvSingular) = none
    ∧ johansenFromMle 3 1 true [1] 1 (Except.error MleError.svvSingular)
      = johansenFromMle 3 1 true [1] 1 (Except.error MleError.suuSingular)
    ∧ MleError.svvSingular ≠ MleError.suuSingular :=
  ⟨rfl, rfl, by decide⟩

/-- C7 amended: any inner-stage failure makes the top-level run fail
atomically with `none` — no partial or degraded result is ever returned,
and a run either fully succeeds with the complete eigensystem and
rejection set or returns `none`; the failure kind is reported only through
a printed diagnostic, not through the returned value. -/
theorem johansen_fails_atomically (nobs k : ℕ) (trace : Bool) (cv : List ℝ)
    (m : ℕ) (e : MleError) (E : List (List ℝ)) (ev : List ℝ) :
    johansenFromMle nobs k trace cv m (Except.error e) = none
    ∧ johansenFromMle nobs k trace cv m (Except.ok (E, ev))
      = some (E, hTestAll nobs k trace cv m ev) :=
  ⟨rfl, rfl⟩

/-! ## C8: degenerate inputs raise before the eigendecomposition -/

theorem length_xDiffOf (x : List (List ℝ)) :
    (xDiffOf x).length = x.length - 1 := by
  simp [xDiffOf]

/-- C8: a series matrix with fewer than `k + 2` observations makes the
procedure fail at the `lagmat` guard (`maxlag should be < nobs`), before
any covariance or eigendecomposition work — regardless of what the
linear-algebra oracles would return. -/
theorem mle_raises_on_short_series (o : Oracles) (x : List (List ℝ))
    (k model : ℕ) (h : x.length < k + 2) :
    mleModel o x k model = Except.error MleError.lagmatDiff := by
  have hlen : (xDiffOf x).length ≤ k := by
    rw [length_xDiffOf]
    omega
  simp [mleModel, hlen]

/-- Witness for C8: a single observation of a single series with `k = 1`. -/
theorem mle_raises_on_short_series_witness :
    [[(0 : ℝ)]].length < 1 + 2
    ∧ mleModel trivOracles [[(0 : ℝ)]] 1 0 = Except.error MleError.lagmatDiff :=
  ⟨by decide, mle_raises_on_short_series trivOracles [[(0 : ℝ)]] 1 0 (by decide)⟩

/-! ## C4: the Cholesky normalization makes Eᵗ·Svv·E the identity -/

/-- C4: when `L` is the Cholesky factor of `Eᵗ·Svv·E` (so `L·Lᵀ` equals
that matrix, which is what `np.linalg.cholesky` returns when it succeeds)
and `L` is invertible (the `np.linalg.inv(cholesky_factor.T)` call
succeeds), the normalized eigenvector matrix `E·(Lᵀ)⁻¹` of `mle`
satisfies `Eᵗ·Svv·E = 1` exactly. -/
theorem chol_normalization_core {n : ℕ} (E L Svv : Matrix (Fin n) (Fin n) ℝ)
    (hL : L * Matrix.transpose L = Matrix.transpose E * Svv * E)
    (hdet : IsUnit L.det) :
    Matrix.transpose (cholNormalize E L) * Svv * cholNormalize E L = 1 := by
  have hdetT : IsUnit (Matrix.transpose L).det := by
    rwa [Matrix.det_transpose]
  have h1 : Matrix.transpose ((Matrix.transpose L)⁻¹) = L⁻¹ := by
    rw [← Matrix.transpose_nonsing_inv L, Matrix.transpose_transpose]
  calc Matrix.transpose (cholNormalize E L) * Svv * cholNormalize E L
      = Matrix.transpose (cholNormalize E L) * Svv * (E * (Matrix.transpose L)⁻¹) :=
        rfl
    _ = (Matrix.transpose ((Matrix.transpose L)⁻¹) * Matrix.transpose E) * Svv *
          (E * (Matrix.transpose L)⁻¹) := by
        rw [show Matrix.transpose (cholNormalize E L)
            = Matrix.transpose ((Matrix.transpose L)⁻¹) * Matrix.transpose E from
          Matrix.transpose_mul E ((Matrix.transpose L)⁻¹)]
    _ = L⁻¹ * (Matrix.transpose E * Svv * E) * (Matrix.transpose L)⁻¹ := by
        rw [h1]
        simp only [Matrix.mul_assoc]
    _ = L⁻¹ * (L * Matrix.transpose L) * (Matrix.transpose L)⁻¹ := by rw [hL]
    _ = 1 := by
        rw [← Matrix.mul_assoc (L⁻¹) L, Matrix.nonsing_inv_mul L hdet, Matrix.one_mul,
          Matrix.mul_nonsing_inv _ hdetT]

/-- C4: when `L` is the Cholesky factor of `Eᵗ·Svv·E` (so `L·Lᵀ` equals
that matrix, which is what `np.linalg.cholesky` returns when it succeeds)
and `L` is invertible (the `np.linalg.inv(cholesky_factor.T)` call
succeeds), the normalized eigenvector matrix `E·(Lᵀ)⁻¹` of `mle` satisfies
`Eᵗ·Svv·E = 1` exactly — and the property survives the subsequent column
reordering of line 157, for any column permutation `σ`. -/
theorem chol_normalization_identity {n : ℕ} (E L Svv : Matrix (Fin n) (Fin n) ℝ)
    (hL : L * Matrix.transpose L = Matrix.transpose E * Svv * E)
    (hdet : IsUnit L.det) :
    Matrix.transpose (cholNormalize E L) * Svv * cholNormalize E L = 1
    ∧ ∀ σ : Equiv.Perm (Fin n),
        Matrix.transpose ((cholNormalize E L).submatrix id ⇑σ) * Svv *
          (cholNormalize E L).submatrix id ⇑σ = 1 := by
  have hN := chol_normalization_core E L Svv hL hdet
  refine ⟨hN, ?_⟩
  intro σ
  have e1 : (Matrix.transpose (cholNormalize E L)).submatrix ⇑σ id * Svv
      = (Matrix.transpose (cholNormalize E L) * Svv).submatrix ⇑σ id := by
    have h := Matrix.submatrix_mul_equiv (Matrix.transpose (cholNormalize E L)) Svv
      ⇑σ (Equiv.refl (Fin n)) id
    simpa using h
  have e2 : (Matrix.transpose (cholNormalize E L) * Svv).submatrix ⇑σ id *
      (cholNormalize E L).submatrix id ⇑σ
      = (Matrix.transpose (cholNormalize E L) * Svv * cholNormalize E L).submatrix ⇑σ ⇑σ := by
    have h := Matrix.submatrix_mul_equiv
      (Matrix.transpose (cholNormalize E L) * Svv) (cholNormalize E L)
      ⇑σ (Equiv.refl (Fin n)) ⇑σ
    simpa using h
  rw [Matrix.transpose_submatrix, e1, e2, hN, Matrix.submatrix_one_equiv]

/-- Witness for C4 at the 1×1 identity instance. -/
theorem chol_normalization_identity_witness :
    ((1 : Matrix (Fin 1) (Fin 1) ℝ) * Matrix.transpose 1
        = Matrix.transpose (1 : Matrix (Fin 1) (Fin 1) ℝ) * 1 * 1
      ∧ IsUnit (1 : Matrix (Fin 1) (Fin 1) ℝ).det)
    ∧ (Matrix.transpose (cholNormalize (1 : Matrix (Fin 1) (Fin 1) ℝ) 1) * 1 *
          cholNormalize (1 : Matrix (Fin 1) (Fin 1) ℝ) 1 = 1
      ∧ ∀ σ : Equiv.Perm (Fin 1),
          Matrix.transpose ((cholNormalize (1 : Matrix (Fin 1) (Fin 1) ℝ) 1).submatrix
              id ⇑σ) * 1 *
            (cholNormalize (1 : Matrix (Fin 1) (Fin 1) ℝ) 1).submatrix id ⇑σ = 1) :=
  ⟨⟨by simp, by simp⟩, chol_normalization_identity 1 1 1 (by simp) (by simp)⟩

/-! ## C3: the eigensystem is sorted descending by one joint permutation -/

theorem argsortLe_trans (vals : List ℝ) : ∀ a b c : ℕ,
    argsortLe vals a b = true → argsortLe vals b c = true →
    argsortLe vals a c = true := by
  intro a b c hab hbc
  simp only [argsortLe, decide_eq_true_eq] at *
  exact le_trans hab hbc

theorem argsortLe_total (vals : List ℝ) : ∀ a b : ℕ,
    (argsortLe vals a b || argsortLe vals b a) = true := by
  intro a b
  simp only [argsortLe, Bool.or_eq_true, decide_eq_true_eq]
  exact le_total _ _

theorem argsortDesc_perm (vals : List ℝ) :
    (argsortDesc vals).Perm (List.range vals.length) := by
  unfold argsortDesc
  exact (List.reverse_perm _).trans (List.mergeSort_perm _ _)

theorem length_argsortDesc (vals : List ℝ) :
    (argsortDesc vals).length = vals.length := by
  simpa using (argsortDesc_perm vals).length_eq

theorem orderedEigenvalues_sorted (vals : List ℝ) :
    List.Sorted (· ≥ ·) (orderedEigenvalues vals) := by
  unfold orderedEigenvalues argsortDesc
  rw [List.map_reverse]
  rw [List.Sorted, List.pairwise_reverse]
  have hp := List.sorted_mergeSort (argsortLe_trans vals) (argsortLe_total vals)
    (List.range vals.length)
  refine List.Pairwise.map _ ?_ hp
  intro a b hab
  simp only [argsortLe, decide_eq_true_eq] at hab
  exact hab

/-- C3: the eigenvalue sequence returned by `mle` is sorted non-increasing,
`indices_ordered` is a permutation of `0..m-1`, both the eigenvalues and
the eigenvector columns are reordered by that same index list, and the
`i`-th returned eigenvector column corresponds to the `i`-th returned
eigenvalue (both come from the same original index). -/
theorem mle_ordering_spec (vals : List ℝ) (E : List (List ℝ)) (i : ℕ)
    (hi : i < vals.length) :
    List.Sorted (· ≥ ·) (orderedEigenvalues vals)
    ∧ (argsortDesc vals).Perm (List.range vals.length)
    ∧ orderedEigenvalues vals = (argsortDesc vals).map (fun j => vals.getD j 0)
    ∧ orderedEigenvectors vals E = colPermute (argsortDesc vals) E
    ∧ (orderedEigenvalues vals).getD i 0
      = vals.getD ((argsortDesc vals).getD i 0) 0
    ∧ colOf (orderedEigenvectors vals E) i
      = colOf E ((argsortDesc vals).getD i 0) := by
  have hilen : i < (argsortDesc vals).length := by
    rw [length_argsortDesc]
    exact hi
  refine ⟨orderedEigenvalues_sorted vals, argsortDesc_perm vals, rfl, rfl, ?_, ?_⟩
  · exact getD_map_of_lt _ _ i 0 0 hilen
  · unfold orderedEigenvectors colPermute colOf
    rw [List.map_map]
    refine List.map_congr_left ?_
    intro row _
    exact getD_map_of_lt _ _ i 0 0 hilen

/-- Witness for C3 at a one-eigenvalue system. -/
theorem mle_ordering_spec_witness :
    0 < [(5 : ℝ)].length
    ∧ (List.Sorted (· ≥ ·) (orderedEigenvalues [(5 : ℝ)])
      ∧ (argsortDesc [(5 : ℝ)]).Perm (List.range [(5 : ℝ)].length)
      ∧ orderedEigenvalues [(5 : ℝ)]
        = (argsortDesc [(5 : ℝ)]).map (fun j => [(5 : ℝ)].getD j 0)
      ∧ orderedEigenvectors [(5 : ℝ)] [[(2 : ℝ)]]
        = colPermute (argsortDesc [(5 : ℝ)]) [[(2 : ℝ)]]
      ∧ (orderedEigenvalues [(5 : ℝ)]).getD 0 0
        = [(5 : ℝ)].getD ((argsortDesc [(5 : ℝ)]).getD 0 0) 0
      ∧ colOf (orderedEigenvectors [(5 : ℝ)] [[(2 : ℝ)]]) 0
        = colOf [[(2 : ℝ)]] ((argsortDesc [(5 : ℝ)]).getD 0 0)) :=
  ⟨Nat.zero_lt_one, mle_ordering_spec [(5 : ℝ)] [[(2 : ℝ)]] 0 Nat.zero_lt_one⟩

/-! ## C5: structure of the auxiliary-regression stage -/

theorem getD_range (n i d : ℕ) (h : i < n) : (List.range n).getD i d = i := by
  rw [List.getD_eq_getElem _ _ (by simpa using h), List.getElem_range]

theorem length_lagmat (xs : List (List ℝ)) (q : ℕ) :
    (lagmat xs q).length = xs.length - q := by
  simp [lagmat]

theorem length_addConst (model : ℕ) (A : List (List ℝ)) :
    (addConst model A).length = A.length := by
  unfold addConst
  split <;> simp

theorem length_addTrend (model : ℕ) (A : List (List ℝ)) :
    (addTrend model A).length = A.length := by
  unfold addTrend
  split <;> simp

theorem length_designMatrix (x : List (List ℝ)) (k model : ℕ) :
    (designMatrix x k model).length = (xDiffOf x).length - k := by
  simp [designMatrix, length_addTrend, length_addConst, length_lagmat]

theorem addConst_row (model : ℕ) (A : List (List ℝ)) (i : ℕ) (hi : i < A.length) :
    (addConst model A).getD i []
      = A.getD i [] ++ (if model ≠ 0 then [(1 : ℝ)] else []) := by
  unfold addConst
  by_cases h : model ≠ 0
  · simp only [if_pos h]
    exact getD_map_of_lt _ _ i [] [] hi
  · simp only [if_neg h]
    simp

theorem addTrend_row (model : ℕ) (A : List (List ℝ)) (i : ℕ) (hi : i < A.length) :
    (addTrend model A).getD i []
      = A.getD i [] ++ (if model = 3 ∨ model = 4 then [(i : ℝ)] else []) := by
  unfold addTrend
  by_cases h : model = 3 ∨ model = 4
  · simp only [if_pos h]
    rw [getD_map_of_lt _ _ i [] 0 (by simpa using hi)]
    rw [getD_range A.length i 0 hi]
  · simp only [if_neg h]
    simp

/-- C5: row `i` of the design matrix is the lagged-differences row followed
by a constant entry exactly when `model ≠ 0` and then a time-trend entry
equal to the row index exactly when `model ∈ {3, 4}`; the trimmed `x_diff`
and `x_lag` have exactly as many rows as the design matrix; and the
residual matrices are `U = x_diff - X·(P·x_diff)`, `V = x_lag - X·(P·x_lag)`
for design matrix `X` and pseudo-inverse `P`. -/
theorem design_and_residual_spec (x : List (List ℝ)) (k model : ℕ)
    (P : List (List ℝ)) (i : ℕ) (hi : i < (designMatrix x k model).length) :
    (designMatrix x k model).getD i []
      = (lagmat (xDiffOf x) k).getD i []
        ++ (if model ≠ 0 then [(1 : ℝ)] else [])
        ++ (if model = 3 ∨ model = 4 then [(i : ℝ)] else [])
    ∧ (designMatrix x k model).length = (xDiffOf x).length - k
    ∧ ((xDiffOf x).drop k).length = (designMatrix x k model).length
    ∧ ((lagmat x 1).drop k).length = (designMatrix x k model).length
    ∧ uResid x k model P
      = matSub ((xDiffOf x).drop k)
          (matMul (designMatrix x k model) (matMul P ((xDiffOf x).drop k)))
    ∧ vResid x k model P
      = matSub ((lagmat x 1).drop k)
          (matMul (designMatrix x k model) (matMul P ((lagmat x 1).drop k))) := by
  have hi1 : i < (addConst model (lagmat (xDiffOf x) k)).length := by
    rw [length_addConst]
    rw [length_designMatrix] at hi
    rw [length_lagmat]
    exact hi
  have hi2 : i < (lagmat (xDiffOf x) k).length := by
    rw [length_addConst] at hi1
    exact hi1
  refine ⟨?_, length_designMatrix x k model, ?_, ?_, rfl, rfl⟩
  · show (addTrend model (addConst model (lagmat (xDiffOf x) k))).getD i [] = _
    rw [addTrend_row model _ i hi1, addConst_row model _ i hi2]
  · rw [List.length_drop, length_designMatrix]
  · rw [List.length_drop, length_designMatrix, length_lagmat, length_xDiffOf]

/-- Witness for C5: three observations of one series, `k = 1`, `model = 0`,
with an arbitrary pseudo-inverse stand-in. -/
theorem design_and_residual_spec_witness :
    0 < (designMatrix [[(0 : ℝ)], [(1 : ℝ)], [(2 : ℝ)]] 1 0).length
    ∧ ((designMatrix [[(0 : ℝ)], [(1 : ℝ)], [(2 : ℝ)]] 1 0).getD 0 []
        = (lagmat (xDiffOf [[(0 : ℝ)], [(1 : ℝ)], [(2 : ℝ)]]) 1).getD 0 []
          ++ (if (0 : ℕ) ≠ 0 then [(1 : ℝ)] else [])
          ++ (if (0 : ℕ) = 3 ∨ (0 : ℕ) = 4 then [((0 : ℕ) : ℝ)] else [])
      ∧ (designMatrix [[(0 : ℝ)], [(1 : ℝ)], [(2 : ℝ)]] 1 0).length
        = (xDiffOf [[(0 : ℝ)], [(1 : ℝ)], [(2 : ℝ)]]).length - 1
      ∧ ((xDiffOf [[(0 : ℝ)], [(1 : ℝ)], [(2 : ℝ)]]).drop 1).length
        = (designMatrix [[(0 : ℝ)], [(1 : ℝ)], [(2 : ℝ)]] 1 0).length
      ∧ ((lagmat [[(0 : ℝ)], [(1 : ℝ)], [(2 : ℝ)]] 1).drop 1).length
        = (designMatrix [[(0 : ℝ)], [(1 : ℝ)], [(2 : ℝ)]] 1 0).length
      ∧ uResid [[(0 : ℝ)], [(1 : ℝ)], [(2 : ℝ)]] 1 0 []
        = matSub ((xDiffOf [[(0 : ℝ)], [(1 : ℝ)], [(2 : ℝ)]]).drop 1)
            (matMul (designMatrix [[(0 : ℝ)], [(1 : ℝ)], [(2 : ℝ)]] 1 0)
              (matMul [] ((xDiffOf [[(0 : ℝ)], [(1 : ℝ)], [(2 : ℝ)]]).drop 1)))
      ∧ vResid [[(0 : ℝ)], [(1 : ℝ)], [(2 : ℝ)]] 1 0 []
        = matSub ((lagmat [[(0 : ℝ)], [(1 : ℝ)], [(2 : ℝ)]] 1).drop 1)
            (matMul (designMatrix [[(0 : ℝ)], [(1 : ℝ)], [(2 : ℝ)]] 1 0)
              (matMul [] ((lagmat [[(0 : ℝ)], [(1 : ℝ)], [(2 : ℝ)]] 1).drop 1)))) :=
  ⟨by simp [length_designMatrix, length_xDiffOf],
    design_and_residual_spec [[(0 : ℝ)], [(1 : ℝ)], [(2 : ℝ)]] 1 0 [] 0
      (by simp [length_designMatrix, length_xDiffOf])⟩

end Johansen
